import Mathlib

/-!
Shallow embedding of the bass-reactive-leds repository (audio_handler.py,
main.py) and verification of the spec's claims about it.

Modelling conventions:
* Python floats are modelled as exact rationals (`ℚ`); Python ints as `ℤ`
  (or `ℕ` for loop indices).  `int(x)` on a float is truncation toward
  zero, modelled by `pyInt`.  Python `//` on nonnegative operands (and on
  floats generally) is `Int.floor` of the true quotient.
* The spectrogram array produced by the external `ulab` library is an
  input to the analysis loop, modelled as a function `output : ℕ → ℚ`
  from bin index to magnitude (the loop only reads indices `1 .. N/2`).
* Hardware reads, LED writes and prints are external side effects and are
  dropped; the functions return the values the source computes.
-/

/-! ### audio_handler.py -/

/-- Constant `NUM_SAMPLES = 256` from audio_handler.py. -/
def NUM_SAMPLES : ℕ := 256

/-- Constant `REACT_CROSSOVER = 400` from audio_handler.py. -/
def REACT_CROSSOVER : ℚ := 400

/-- The three accumulator variables of the bin loop in
`AudioHandler.sample`: `max_magnitude`, `max_low_freq_mag`,
`fundamental_freq`. -/
structure BinAcc where
  maxMagnitude : ℚ
  maxLowFreqMag : ℚ
  fundamentalFreq : ℚ
  deriving DecidableEq

/-- One iteration of the loop `for i in range(1, int(self.num_samples / 2) + 1)`
in `AudioHandler.sample`:

    mag = output[i]
    freq = i * 1.0 / sample_secs
    if mag > max_magnitude:
        fundamental_freq = freq
        max_magnitude = mag
    if freq < self.crossover and mag > max_low_freq_mag:
        max_low_freq_mag = mag
-/
def binStep (sample_secs crossover : ℚ) (output : ℕ → ℚ) (acc : BinAcc) (i : ℕ) :
    BinAcc :=
  let mag := output i
  let freq := (i : ℚ) * 1 / sample_secs
  let acc1 := if acc.maxMagnitude < mag then
    { acc with fundamentalFreq := freq, maxMagnitude := mag } else acc
  if freq < crossover ∧ acc1.maxLowFreqMag < mag then
    { acc1 with maxLowFreqMag := mag } else acc1

/-- Function `AudioHandler.sample` (audio_handler.py lines 41-59), after the
spectrogram has been computed: starting from
`max_magnitude = 0`, `max_low_freq_mag = 0`, `fundamental_freq = 0`,
run the bin loop over `i = 1 .. num_samples/2` and return
`(fundamental_freq, max_low_freq_mag * 2 / num_samples)`. -/
def AudioHandler.sample (num_samples : ℕ) (crossover : ℚ) (output : ℕ → ℚ)
    (sample_secs : ℚ) : ℚ × ℚ :=
  let acc := (List.range' 1 (num_samples / 2)).foldl
    (binStep sample_secs crossover output) ⟨0, 0, 0⟩
  (acc.fundamentalFreq, acc.maxLowFreqMag * 2 / (num_samples : ℚ))

/-! ### main.py: constants and helpers -/

/-- Constant `AMPLITUDE_PEAK = 5000` from main.py: at or above this amplitude the
mapped brightness is 100%. -/
def AMPLITUDE_PEAK : ℤ := 5000

/-- Constant `OFF = (0, 0, 0)` from main.py. -/
def OFF : ℤ × ℤ × ℤ := (0, 0, 0)

/-- Constant `REACTIVE_COLOR_CHANGE_SPEED = 3` from main.py. -/
def REACTIVE_COLOR_CHANGE_SPEED : ℤ := 3

/-- Constant `COLOR_INDEX_MAX = 256 * REACTIVE_COLOR_CHANGE_SPEED` from main.py. -/
def COLOR_INDEX_MAX : ℤ := 256 * REACTIVE_COLOR_CHANGE_SPEED

/-- Argument `min_val=0` passed to the `RotaryIRQ` constructor in main.py
(`RANGE_BOUNDED` keeps the encoder value within these bounds). -/
def encoder_min_val : ℤ := 0

/-- Argument `max_val=50` passed to the `RotaryIRQ` constructor in main.py. -/
def encoder_max_val : ℤ := 50

/-- Python `int(x)` applied to a float: truncation toward zero. -/
def pyInt (q : ℚ) : ℤ := if 0 ≤ q then ⌊q⌋ else ⌈q⌉

/-- Function `map_value` from main.py:

    return max(min(out_max, (x - in_min) * (out_max - out_min) // (in_max - in_min) + out_min), out_min)

In the reactive caller `x` is the float `low_freq_amp`, so `//` is float
floor division, i.e. the floor of the exact quotient. -/
def map_value (x in_min in_max : ℚ) (out_min out_max : ℤ) : ℤ :=
  max (min out_max
    (⌊(x - in_min) * ((out_max - out_min : ℤ) : ℚ) / (in_max - in_min)⌋ + out_min))
    out_min

/-- Function `apply_brightness` from main.py:
`int(color_value * avg_brightness / 100.0)`. -/
def apply_brightness (avg_brightness : ℤ) (color_value : ℚ) : ℤ :=
  pyInt (color_value * (avg_brightness : ℚ) / 100)

/-- Function `wheel` from main.py (the in-place `pos -= 85` / `pos -= 170` mutations
are written as explicit subtractions). -/
def wheel (avg_brightness : ℤ) (pos : ℚ) : ℤ × ℤ × ℤ :=
  if pos < 0 ∨ 255 < pos then (0, 0, 0)
  else if pos < 85 then
    (apply_brightness avg_brightness (255 - pos * 3),
     apply_brightness avg_brightness (pos * 3), 0)
  else if pos < 170 then
    (0, apply_brightness avg_brightness (255 - (pos - 85) * 3),
     apply_brightness avg_brightness ((pos - 85) * 3))
  else
    (apply_brightness avg_brightness ((pos - 170) * 3), 0,
     apply_brightness avg_brightness (255 - (pos - 170) * 3))

/-! ### main.py: brightness smoother -/

/-- The smoother's cross-frame state: `brightness_list` (a fixed list of
6 values, initially `[100] * 6`) and `brightness_index`. -/
structure BrightnessState where
  list : Fin 6 → ℤ
  index : Fin 6

/-- Function `average_brightness` from main.py:

    brightness_list[brightness_index] = new_value
    brightness_index += 1
    if brightness_index == len(brightness_list):
        brightness_index = 0
    return int(np.mean(brightness_list))

`np.mean` is the float sum of the 6 entries divided by 6. -/
def average_brightness (s : BrightnessState) (new_value : ℤ) :
    BrightnessState × ℤ :=
  let list2 := Function.update s.list s.index new_value
  let index2 : Fin 6 :=
    if h : s.index.val + 1 = 6 then ⟨0, by norm_num⟩
    else ⟨s.index.val + 1, by have := s.index.isLt; omega⟩
  (⟨list2, index2⟩, pyInt ((∑ i, ((list2 i : ℚ))) / 6))

/-- A sequence of `average_brightness` calls, returning the final state and
the average returned by the last call (`0` as placeholder if no call is
made). -/
def pushSeq (s : BrightnessState) (vs : List ℤ) : BrightnessState × ℤ :=
  vs.foldl (fun p v => average_brightness p.1 v) (s, 0)

/-- Initial smoother state from main.py:
`brightness_list = [100 for _ in range(6)]`, `brightness_index = 0`. -/
def brightnessInit : BrightnessState := ⟨fun _ => 100, 0⟩

/-! ### main.py: reactive renderer -/

/-- The cross-frame state touched by `reactive` in main.py: the smoother
state, `color_index`, and `last_non_zero_color`. (`avg_brightness` is
recomputed at the start of every reactive frame before it is read, so it
is not part of the cross-frame state.) -/
structure ReactiveState where
  brightnessList : Fin 6 → ℤ
  brightnessIndex : Fin 6
  colorIndex : ℤ
  lastNonZeroColor : Option (ℤ × ℤ × ℤ)

/-- The brightness computed at the top of a reactive frame:
`map_value(low_freq_amp, 0, AMPLITUDE_PEAK - (encoder.value() * 50), 20, 100)`. -/
def reactiveBrightness (low_freq_amp : ℚ) (encoder_value : ℤ) : ℤ :=
  map_value low_freq_amp 0 ((AMPLITUDE_PEAK - encoder_value * 50 : ℤ) : ℚ) 20 100

/-- The color computed by `wheel` in a reactive frame, before the
flicker-avoidance substitution:
`wheel(color_index / REACTIVE_COLOR_CHANGE_SPEED)` evaluated with the
`avg_brightness` that was just produced by `average_brightness`. -/
def reactiveComputedColor (s : ReactiveState) (low_freq_amp : ℚ)
    (encoder_value : ℤ) : ℤ × ℤ × ℤ :=
  let brightness := reactiveBrightness low_freq_amp encoder_value
  let avg := (average_brightness ⟨s.brightnessList, s.brightnessIndex⟩ brightness).2
  wheel avg ((s.colorIndex : ℚ) / (REACTIVE_COLOR_CHANGE_SPEED : ℚ))

/-- One frame of `reactive` from main.py (lines 235-255).  Inputs that come
from the outside world each frame: `low_freq_amp` (from
`audio_handler.sample()`) and `encoder_value` (from `encoder.value()`).
Returns the new cross-frame state and the color written to both strips.

    brightness = map_value(low_freq_amp, 0, AMPLITUDE_PEAK - (encoder.value() * 50), 20, 100)
    avg_brightness = average_brightness(brightness)
    color = wheel(color_index / REACTIVE_COLOR_CHANGE_SPEED)
    if last_non_zero_color is None or color != OFF:
        last_non_zero_color = color
    if color == OFF:
        color = last_non_zero_color
    color_index = color_index + 1 if color_index != COLOR_INDEX_MAX else 0
    np_left.fill(color); np_right.fill(color); ...

In the `color == OFF` branch `last_non_zero_color` is never `None`
(the previous `if` just assigned it when it was), so the `Option.getD OFF`
default is unreachable. -/
def reactive (s : ReactiveState) (low_freq_amp : ℚ) (encoder_value : ℤ) :
    ReactiveState × (ℤ × ℤ × ℤ) :=
  let brightness := reactiveBrightness low_freq_amp encoder_value
  let bs := (average_brightness ⟨s.brightnessList, s.brightnessIndex⟩ brightness).1
  let color := reactiveComputedColor s low_freq_amp encoder_value
  let last := if s.lastNonZeroColor = none ∨ color ≠ OFF then some color
    else s.lastNonZeroColor
  let emitted := if color = OFF then last.getD OFF else color
  let colorIndex2 := if s.colorIndex ≠ COLOR_INDEX_MAX then s.colorIndex + 1 else 0
  (⟨bs.list, bs.index, colorIndex2, last⟩, emitted)

/-- Initial reactive state from the top of main.py:
`brightness_list = [100] * 6`, `brightness_index = 0`, `color_index = 0`,
`last_non_zero_color = None`. -/
def reactiveInit : ReactiveState := ⟨fun _ => 100, 0, 0, none⟩

/-- A run of consecutive reactive frames: fold `reactive` over the
per-frame inputs `(low_freq_amp, encoder_value)`. -/
def runReactive (s : ReactiveState) (inputs : List (ℚ × ℤ)) : ReactiveState :=
  inputs.foldl (fun st p => (reactive st p.1 p.2).1) s

/-- Spec-side definition, following the spec's words for claim C2:
the maximum magnitude among the bins `i ∈ [1, N/2]` whose frequency
`i/D` is strictly below the crossover (`0` when no bin qualifies; the
magnitudes produced by a spectrogram are nonnegative, so for them this
fold is exactly that maximum). -/
def maxLowMagSpec (num_samples : ℕ) (sample_secs crossover : ℚ)
    (output : ℕ → ℚ) : ℚ :=
  ((List.range' 1 (num_samples / 2)).filter
    (fun i : ℕ => decide ((i : ℚ) / sample_secs < crossover))).foldl
    (fun m i => max m (output i)) 0

/-! ### Lemmas about the bin loop -/

lemma binStep_maxMagnitude (D C : ℚ) (out : ℕ → ℚ) (acc : BinAcc) (i : ℕ) :
    (binStep D C out acc i).maxMagnitude =
      if acc.maxMagnitude < out i then out i else acc.maxMagnitude := by
  simp only [binStep, mul_one]
  split_ifs <;> simp_all

lemma binStep_fundamentalFreq (D C : ℚ) (out : ℕ → ℚ) (acc : BinAcc) (i : ℕ) :
    (binStep D C out acc i).fundamentalFreq =
      if acc.maxMagnitude < out i then (i : ℚ) / D
      else acc.fundamentalFreq := by
  simp only [binStep, mul_one]
  split_ifs <;> simp_all

lemma binStep_maxLowFreqMag (D C : ℚ) (out : ℕ → ℚ) (acc : BinAcc) (i : ℕ) :
    (binStep D C out acc i).maxLowFreqMag =
      if (i : ℚ) / D < C then max acc.maxLowFreqMag (out i)
      else acc.maxLowFreqMag := by
  simp only [binStep, mul_one]
  by_cases hc : (i : ℚ) / D < C
  · by_cases hl : acc.maxLowFreqMag < out i
    · by_cases hm : acc.maxMagnitude < out i <;>
        simp [hm, hc, hl, max_eq_right hl.le]
    · by_cases hm : acc.maxMagnitude < out i <;>
        simp [hm, hc, hl, max_eq_left (not_lt.mp hl)]
  · by_cases hm : acc.maxMagnitude < out i <;> simp [hm, hc]

/-- Lemma: the `max_low_freq_mag` component of the loop is the max-fold over the
bins whose frequency is below the crossover. -/
lemma foldl_binStep_maxLowFreqMag (D C : ℚ) (out : ℕ → ℚ) :
    ∀ (l : List ℕ) (acc : BinAcc),
      (l.foldl (binStep D C out) acc).maxLowFreqMag =
        (l.filter (fun i : ℕ => decide ((i : ℚ) / D < C))).foldl
          (fun m i => max m (out i)) acc.maxLowFreqMag := by
  intro l
  induction l with
  | nil => intro acc; rfl
  | cons x xs ih =>
    intro acc
    rw [List.foldl_cons, ih, List.filter_cons]
    by_cases h : (x : ℚ) / D < C <;>
      simp [h, binStep_maxLowFreqMag]

/-- The base value of a max-fold is a lower bound of its result. -/
lemma le_foldl_max (out : ℕ → ℚ) :
    ∀ (l : List ℕ) (b : ℚ), b ≤ l.foldl (fun m i => max m (out i)) b := by
  intro l
  induction l with
  | nil => intro b; exact le_refl b
  | cons x xs ih =>
    intro b
    exact le_trans (le_max_left b (out x)) (ih (max b (out x)))

/-- Invariant of the fundamental-frequency tracking in the bin loop: after
folding over `l` from the initial accumulator, either no positive
magnitude was seen (and `fundamental_freq` is still `0`), or
`fundamental_freq` is the frequency of the first bin attaining the
maximum magnitude (strict `>` updates only). -/
lemma foldl_binStep_fundamental (D C : ℚ) (out : ℕ → ℚ) (l : List ℕ) :
    ((l.foldl (binStep D C out) ⟨0, 0, 0⟩).maxMagnitude = 0 ∧
     (l.foldl (binStep D C out) ⟨0, 0, 0⟩).fundamentalFreq = 0 ∧
     ∀ i ∈ l, out i ≤ 0) ∨
    (∃ (l1 : List ℕ) (i : ℕ) (l2 : List ℕ), l = l1 ++ i :: l2 ∧
      (l.foldl (binStep D C out) ⟨0, 0, 0⟩).fundamentalFreq = (i : ℚ) / D ∧
      (l.foldl (binStep D C out) ⟨0, 0, 0⟩).maxMagnitude = out i ∧
      0 < out i ∧ (∀ j ∈ l1, out j < out i) ∧ (∀ j ∈ l2, out j ≤ out i)) := by
  induction l using List.reverseRecOn with
  | nil => exact Or.inl ⟨rfl, rfl, by simp⟩
  | append_singleton xs x ih =>
    rw [List.foldl_append, List.foldl_cons, List.foldl_nil]
    rcases ih with ⟨hm, hf, hall⟩ | ⟨l1, i, l2, heq, hf, hm, hpos, hlt, hle⟩
    · by_cases h : (xs.foldl (binStep D C out) ⟨0, 0, 0⟩).maxMagnitude < out x
      · refine Or.inr ⟨xs, x, [], by simp, ?_, ?_, ?_, ?_, by simp⟩
        · rw [binStep_fundamentalFreq, if_pos h]
        · rw [binStep_maxMagnitude, if_pos h]
        · rw [hm] at h; exact h
        · intro j hj
          rw [hm] at h
          exact lt_of_le_of_lt (hall j hj) h
      · refine Or.inl ⟨?_, ?_, ?_⟩
        · rw [binStep_maxMagnitude, if_neg h, hm]
        · rw [binStep_fundamentalFreq, if_neg h, hf]
        · intro j hj
          rcases List.mem_append.mp hj with hj | hj
          · exact hall j hj
          · rw [List.mem_singleton.mp hj]
            rw [hm] at h
            exact not_lt.mp h
    · by_cases h : (xs.foldl (binStep D C out) ⟨0, 0, 0⟩).maxMagnitude < out x
      · refine Or.inr ⟨xs, x, [], by simp, ?_, ?_, ?_, ?_, by simp⟩
        · rw [binStep_fundamentalFreq, if_pos h]
        · rw [binStep_maxMagnitude, if_pos h]
        · rw [hm] at h; exact lt_trans hpos h
        · intro j hj
          rw [hm] at h
          rw [heq] at hj
          rcases List.mem_append.mp hj with hj | hj
          · exact lt_trans (hlt j hj) h
          · rcases List.mem_cons.mp hj with hj | hj
            · rw [hj]; exact h
            · exact lt_of_le_of_lt (hle j hj) h
      · refine Or.inr ⟨l1, i, l2 ++ [x], by rw [heq]; simp, ?_, ?_, hpos, hlt, ?_⟩
        · rw [binStep_fundamentalFreq, if_neg h, hf]
        · rw [binStep_maxMagnitude, if_neg h, hm]
        · intro j hj
          rcases List.mem_append.mp hj with hj | hj
          · exact hle j hj
          · rw [List.mem_singleton.mp hj]
            rw [hm] at h
            exact not_lt.mp h

/-! ### Claims C1 and C2: the spectral analysis -/

/-- C1, amended.  For every magnitude spectrum with a positive magnitude in
some bin `i ∈ [1, N/2]` and measured duration `D > 0`, `AudioHandler.sample`
returns a fundamental frequency `istar / D` where `istar ∈ [1, N/2]` is the
bin with the maximum magnitude among bins `1 .. N/2`, ties resolved to the
lowest such index by the strict `>` comparison.  (The amendment: the
original claim also covers spectra whose bins `1 .. N/2` are all zero —
e.g. from a constant sample batch — where the code returns `0`, which is
not of the form `istar / D`; the separate counterexample below records
this.) -/
theorem sample_fundamental_argmax (N : ℕ) (D C : ℚ) (output : ℕ → ℚ)
    (hD : 0 < D)
    (hex : ∃ i, 1 ≤ i ∧ i ≤ N / 2 ∧ 0 < output i) :
    ∃ istar, 1 ≤ istar ∧ istar ≤ N / 2 ∧
      (AudioHandler.sample N C output D).1 = (istar : ℚ) / D ∧
      (∀ j, 1 ≤ j → j ≤ N / 2 → output j ≤ output istar) ∧
      (∀ j, 1 ≤ j → j < istar → output j < output istar) := by
  obtain ⟨i0, hi0l, hi0r, hi0pos⟩ := hex
  have hmem : i0 ∈ List.range' 1 (N / 2) := List.mem_range'_1.mpr ⟨hi0l, by omega⟩
  rcases foldl_binStep_fundamental D C output (List.range' 1 (N / 2)) with
    ⟨hm, hf, hall⟩ | ⟨l1, i, l2, heq, hf, hm, hpos, hlt, hle⟩
  · exact absurd (hall i0 hmem) (not_le.mpr hi0pos)
  · have himem : i ∈ List.range' 1 (N / 2) := by rw [heq]; simp
    have hib := List.mem_range'_1.mp himem
    refine ⟨i, hib.1, by omega, ?_, ?_, ?_⟩
    · simpa only [AudioHandler.sample] using hf
    · intro j hj1 hj2
      have hjmem : j ∈ List.range' 1 (N / 2) := List.mem_range'_1.mpr ⟨hj1, by omega⟩
      rw [heq] at hjmem
      rcases List.mem_append.mp hjmem with hj | hj
      · exact (hlt j hj).le
      · rcases List.mem_cons.mp hj with hj | hj
        · rw [hj]
        · exact hle j hj
    · intro j hj1 hji
      have hjmem : j ∈ List.range' 1 (N / 2) :=
        List.mem_range'_1.mpr ⟨hj1, by omega⟩
      have hpw : (List.range' 1 (N / 2)).Pairwise (· < ·) :=
        List.pairwise_lt_range' 1 (N / 2)
      rw [heq] at hjmem hpw
      rcases List.mem_append.mp hjmem with hj | hj
      · exact hlt j hj
      · rcases List.mem_cons.mp hj with hj | hj
        · omega
        · have := ((List.pairwise_cons.mp
            (List.pairwise_append.mp hpw).2.1).1 j hj)
          omega

/-- Witness for `sample_fundamental_argmax`: a spectrum over `N = 6`
samples with its single positive magnitude in bin 2. -/
theorem sample_fundamental_argmax_witness :
    ∃ istar : ℕ, 1 ≤ istar ∧ istar ≤ 6 / 2 ∧
      (AudioHandler.sample 6 400 (fun i => if i = 2 then 5 else 0) 1).1 =
        (istar : ℚ) / 1 ∧
      (∀ j, 1 ≤ j → j ≤ 6 / 2 →
        (if j = 2 then (5 : ℚ) else 0) ≤ (if istar = 2 then (5 : ℚ) else 0)) ∧
      (∀ j, 1 ≤ j → j < istar →
        (if j = 2 then (5 : ℚ) else 0) < (if istar = 2 then (5 : ℚ) else 0)) :=
  sample_fundamental_argmax 6 1 400 (fun i => if i = 2 then 5 else 0)
    (by norm_num) ⟨2, by norm_num⟩

/-- Counterexample to C1 as stated: the all-zero spectrum (produced e.g.
by a constant sample batch, whose non-DC bins are all zero) with `N = 4`,
`D = 1` makes the code return fundamental frequency `0`, which equals
`istar / D` for no `istar ∈ [1, N/2]`. -/
theorem claim_C1_counterexample :
    ¬ ∃ istar ∈ Finset.Icc (1 : ℕ) 2,
      (AudioHandler.sample 4 400 (fun _ => 0) 1).1 = (istar : ℚ) / 1 := by
  have h : (AudioHandler.sample 4 400 (fun _ => 0) 1).1 = 0 := by
    norm_num [AudioHandler.sample, binStep, List.range']
  rintro ⟨i, hi, heq⟩
  rw [h] at heq
  rw [Finset.mem_Icc] at hi
  have hz : (i : ℚ) = 0 := by
    rw [div_one] at heq
    exact heq.symm
  rw [Nat.cast_eq_zero] at hz
  omega

/-- C2: for every magnitude spectrum (nonnegative magnitudes, as produced
by a spectrogram), duration `D > 0` and crossover `C`, the returned
`low_freq_amplitude` equals `2 * m / N` where `m` is the maximum magnitude
among bins `i ∈ [1, N/2]` with frequency `i / D < C` (`maxLowMagSpec`);
it is nonnegative; and it is exactly `0` when `C ≤ 1 / D`. -/
theorem sample_low_freq_amplitude (N : ℕ) (D C : ℚ) (output : ℕ → ℚ)
    (hD : 0 < D) (hN : 0 < N)
    (hmag : ∀ i, 1 ≤ i → i ≤ N / 2 → 0 ≤ output i) :
    (AudioHandler.sample N C output D).2 = 2 * maxLowMagSpec N D C output / N ∧
    0 ≤ (AudioHandler.sample N C output D).2 ∧
    (C ≤ 1 / D → (AudioHandler.sample N C output D).2 = 0) := by
  have hlow : (AudioHandler.sample N C output D).2 =
      maxLowMagSpec N D C output * 2 / N := by
    simp only [AudioHandler.sample, maxLowMagSpec]
    rw [foldl_binStep_maxLowFreqMag]
  have hnn : 0 ≤ maxLowMagSpec N D C output := le_foldl_max output _ 0
  refine ⟨by rw [hlow]; ring, ?_, ?_⟩
  · rw [hlow]
    exact div_nonneg (mul_nonneg hnn (by norm_num)) (Nat.cast_nonneg N)
  · intro hC
    have hfil : (List.range' 1 (N / 2)).filter
        (fun i : ℕ => decide ((i : ℚ) / D < C)) = [] := by
      rw [List.filter_eq_nil_iff]
      intro a ha
      have hab := List.mem_range'_1.mp ha
      simp only [decide_eq_true_eq, not_lt]
      calc C ≤ 1 / D := hC
        _ ≤ (a : ℚ) / D := by
          rw [div_le_div_iff_of_pos_right hD]
          exact_mod_cast hab.1
    rw [hlow]
    simp only [maxLowMagSpec, hfil, List.foldl_nil, zero_mul, zero_div]

/-- Witness for `sample_low_freq_amplitude`: `N = 4`, `D = 1`, `C = 400`,
magnitudes `output i = i`. -/
theorem sample_low_freq_amplitude_witness :
    (AudioHandler.sample 4 400 (fun i => (i : ℚ)) 1).2 =
      2 * maxLowMagSpec 4 1 400 (fun i => (i : ℚ)) / 4 ∧
    0 ≤ (AudioHandler.sample 4 400 (fun i => (i : ℚ)) 1).2 ∧
    ((400 : ℚ) ≤ 1 / 1 → (AudioHandler.sample 4 400 (fun i => (i : ℚ)) 1).2 = 0) :=
  sample_low_freq_amplitude 4 1 400 (fun i => (i : ℚ)) (by norm_num)
    (by norm_num) (fun i _ _ => by positivity)

/-! ### Claim C7: the amplitude-to-brightness map -/

/-- C7: for every amplitude `a` and positive ceiling `c`, the brightness
map `map_value a 0 c 20 100` lands in `[20, 100]`; `a ≤ 0` gives exactly
`20`; `a ≥ c` gives exactly `100`; and `0 ≤ a ≤ c` gives the linear map
`20 + ⌊a * 80 / c⌋` (integer floor division) from `[0, c]` to `[20, 100]`. -/
theorem map_value_brightness (a c : ℚ) (hc : 0 < c) :
    20 ≤ map_value a 0 c 20 100 ∧ map_value a 0 c 20 100 ≤ 100 ∧
    (a ≤ 0 → map_value a 0 c 20 100 = 20) ∧
    (c ≤ a → map_value a 0 c 20 100 = 100) ∧
    (0 ≤ a → a ≤ c → map_value a 0 c 20 100 = 20 + ⌊a * 80 / c⌋) := by
  have hval : map_value a 0 c 20 100 =
      max (min 100 (⌊a * 80 / c⌋ + 20)) 20 := by
    simp only [map_value]
    norm_num
  refine ⟨?_, ?_, ?_, ?_, ?_⟩
  · rw [hval]; exact le_max_right _ _
  · rw [hval]
    exact max_le (min_le_left _ _) (by norm_num)
  · intro ha
    rw [hval]
    have hfl : ⌊a * 80 / c⌋ ≤ 0 := by
      apply Int.floor_nonpos
      apply div_nonpos_of_nonpos_of_nonneg _ hc.le
      nlinarith
    have h1 : min 100 (⌊a * 80 / c⌋ + 20) ≤ 20 :=
      le_trans (min_le_right _ _) (by omega)
    omega
  · intro ha
    rw [hval]
    have hfl : (80 : ℤ) ≤ ⌊a * 80 / c⌋ := by
      rw [Int.le_floor]
      rw [le_div_iff₀ hc]
      push_cast
      nlinarith
    have h1 : min 100 (⌊a * 80 / c⌋ + 20) = 100 := min_eq_left (by omega)
    omega
  · intro ha0 hac
    rw [hval]
    have hfl0 : (0 : ℤ) ≤ ⌊a * 80 / c⌋ := by
      apply Int.floor_nonneg.mpr
      positivity
    have hfl80 : ⌊a * 80 / c⌋ ≤ 80 := by
      rw [Int.floor_le_iff]
      push_cast
      rw [div_lt_iff₀ hc]
      nlinarith
    omega

/-- Witness for `map_value_brightness` at `a = 3`, `c = 5`
(`⌊3 * 80 / 5⌋ = 48`, so the mapped brightness is `68`). -/
theorem map_value_brightness_witness :
    20 ≤ map_value 3 0 5 20 100 ∧ map_value 3 0 5 20 100 ≤ 100 ∧
    ((3 : ℚ) ≤ 0 → map_value 3 0 5 20 100 = 20) ∧
    ((5 : ℚ) ≤ 3 → map_value 3 0 5 20 100 = 100) ∧
    ((0 : ℚ) ≤ 3 → (3 : ℚ) ≤ 5 → map_value 3 0 5 20 100 = 20 + ⌊(3 : ℚ) * 80 / 5⌋) :=
  map_value_brightness 3 5 (by norm_num)

/-! ### Claim C10: the amplitude ceiling never vanishes -/

/-- C10: for every encoder value `v` within the encoder's configured
bounded range `[encoder_min_val, encoder_max_val] = [0, 50]`, the
amplitude ceiling `AMPLITUDE_PEAK - v * 50` used by the reactive frame is
at least `2500`, hence strictly positive, so the divisor
`in_max - in_min = (AMPLITUDE_PEAK - v * 50) - 0` inside `map_value` is
nonzero. -/
theorem amplitude_ceiling_positive (v : ℤ)
    (hlo : encoder_min_val ≤ v) (hhi : v ≤ encoder_max_val) :
    2500 ≤ AMPLITUDE_PEAK - v * 50 ∧ 0 < AMPLITUDE_PEAK - v * 50 ∧
    (((AMPLITUDE_PEAK - v * 50 : ℤ) : ℚ) - 0) ≠ 0 := by
  simp only [encoder_min_val, encoder_max_val, AMPLITUDE_PEAK] at *
  refine ⟨by omega, by omega, ?_⟩
  rw [sub_zero]
  have h : (0 : ℤ) < 5000 - v * 50 := by omega
  exact_mod_cast h.ne'

/-- Witness for `amplitude_ceiling_positive` at the encoder's maximum
value `v = 50` (ceiling exactly `2500`). -/
theorem amplitude_ceiling_positive_witness :
    2500 ≤ AMPLITUDE_PEAK - 50 * 50 ∧ 0 < AMPLITUDE_PEAK - 50 * 50 ∧
    (((AMPLITUDE_PEAK - 50 * 50 : ℤ) : ℚ) - 0) ≠ 0 :=
  amplitude_ceiling_positive 50 (by norm_num [encoder_min_val])
    (by norm_num [encoder_max_val])

/-! ### Claims C8 and C9: the brightness smoother -/

/-- The smoother state reached by a sequence of pushes (the states the
`average_brightness` calls thread through, ignoring the returned
averages). -/
def pushState (s : BrightnessState) (vs : List ℤ) : BrightnessState :=
  vs.foldl (fun st v => (average_brightness st v).1) s

lemma pushSeq_fst (s : BrightnessState) (vs : List ℤ) :
    (pushSeq s vs).1 = pushState s vs := by
  suffices h : ∀ (p : BrightnessState × ℤ),
      (vs.foldl (fun q v => average_brightness q.1 v) p).1 = pushState p.1 vs by
    exact h (s, 0)
  induction vs with
  | nil => intro p; rfl
  | cons x xs ih =>
    intro p
    rw [List.foldl_cons]
    exact ih _

/-- The last average of a nonempty push sequence is `int` of the mean of
the final stored values. -/
lemma pushSeq_last (s : BrightnessState) (vs : List ℤ) (v : ℤ) :
    (pushSeq s (vs ++ [v])).2 =
      pyInt ((∑ i, (((pushState s (vs ++ [v])).list i : ℚ))) / 6) := by
  have h1 : pushSeq s (vs ++ [v]) =
      average_brightness (pushSeq s vs).1 v := by
    simp only [pushSeq, List.foldl_append, List.foldl_cons, List.foldl_nil]
  have h2 : pushState s (vs ++ [v]) =
      (average_brightness (pushState s vs) v).1 := by
    simp only [pushState, List.foldl_append, List.foldl_cons, List.foldl_nil]
  rw [h1, h2, pushSeq_fst]
  rfl

/-- Normal form of one push's state change: the slot at the cursor is
overwritten and the cursor advances by one modulo 6. -/
lemma average_brightness_state (g : Fin 6 → ℤ) (k : ℕ) (h : k < 6) (v : ℤ) :
    (average_brightness ⟨g, ⟨k, h⟩⟩ v).1 =
      ⟨Function.update g ⟨k, h⟩ v, ⟨(k + 1) % 6, Nat.mod_lt _ (by norm_num)⟩⟩ := by
  have hidx : (if h2 : k + 1 = 6 then (⟨0, by norm_num⟩ : Fin 6)
      else ⟨k + 1, by omega⟩) = ⟨(k + 1) % 6, Nat.mod_lt _ (by norm_num)⟩ := by
    by_cases h6 : k + 1 = 6
    · rw [dif_pos h6]
      apply Fin.ext
      simp [h6]
    · rw [dif_neg h6]
      apply Fin.ext
      exact (Nat.mod_eq_of_lt (by omega)).symm
  simp only [average_brightness]
  rw [← hidx]

/-- Pushing six values writes each of the six slots once (the write cursor
wraps around), so the stored values afterwards sum to the pushed values. -/
lemma pushState_six_sum (s : BrightnessState) (a b c d e f : ℤ) :
    (∑ i, (((pushState s [a, b, c, d, e, f]).list i : ℚ))) =
      (a : ℚ) + b + c + d + e + f := by
  rcases s with ⟨g, ⟨iv, hiv⟩⟩
  interval_cases iv <;>
    · simp only [pushState, List.foldl_cons, List.foldl_nil,
        average_brightness_state]
      norm_num +decide [Fin.sum_univ_six, Function.update, Fin.eq_mk_iff_val_eq]
      try ring

/-- Pushing the same value six times overwrites every slot with it. -/
lemma pushState_replicate_six (s : BrightnessState) (V : ℤ) :
    (pushState s (List.replicate 6 V)).list = fun _ => V := by
  funext j
  rcases s with ⟨g, ⟨iv, hiv⟩⟩
  rcases j with ⟨jv, hjv⟩
  interval_cases iv <;> interval_cases jv <;>
    · simp only [pushState, List.replicate, List.foldl_cons, List.foldl_nil,
        average_brightness_state]
      norm_num +decide [Function.update, Fin.eq_mk_iff_val_eq]

/-- Once every slot holds `V`, further pushes of `V` keep every slot at
`V`. -/
lemma pushState_replicate_list (s : BrightnessState) (V : ℤ) (m : ℕ) :
    (pushState s (List.replicate (6 + m) V)).list = fun _ => V := by
  induction m with
  | zero => exact pushState_replicate_six s V
  | succ m ih =>
    have hrep : List.replicate (6 + (m + 1)) V =
        List.replicate (6 + m) V ++ [V] := by
      rw [← List.replicate_succ' (6 + m) V]
      rfl
    rw [hrep]
    have hstep : pushState s (List.replicate (6 + m) V ++ [V]) =
        (average_brightness (pushState s (List.replicate (6 + m) V)) V).1 := by
      simp only [pushState, List.foldl_append, List.foldl_cons, List.foldl_nil]
    have hupd : (average_brightness (pushState s (List.replicate (6 + m) V)) V).1.list =
        Function.update (pushState s (List.replicate (6 + m) V)).list
          (pushState s (List.replicate (6 + m) V)).index V := rfl
    rw [hstep]
    funext j
    rw [hupd, ih]
    by_cases h : j = (pushState s (List.replicate (6 + m) V)).index
    · rw [h, Function.update_same]
    · simp [Function.update_noteq h]

/-- C8: pushing six values `a .. f` (each in the smoother's contractual
range, hence nonnegative) from any smoother state returns
`floor((a + .. + f) / 6)`, and pushing the same value `V` six times — and
any number of further identical pushes — returns exactly `V`. -/
theorem average_brightness_contract (s : BrightnessState) (a b c d e f : ℤ)
    (ha : 0 ≤ a) (hb : 0 ≤ b) (hc : 0 ≤ c) (hd : 0 ≤ d) (he : 0 ≤ e)
    (hf : 0 ≤ f) (V : ℤ) (m : ℕ) :
    (pushSeq s [a, b, c, d, e, f]).2 =
      ⌊((a + b + c + d + e + f : ℤ) : ℚ) / 6⌋ ∧
    (pushSeq s (List.replicate (6 + m) V)).2 = V := by
  constructor
  · have hsplit : [a, b, c, d, e, f] = [a, b, c, d, e] ++ [f] := rfl
    rw [hsplit, pushSeq_last, ← hsplit, pushState_six_sum]
    rw [pyInt, if_pos (by positivity)]
    congr 1
    push_cast
    ring
  · have hrep : List.replicate (6 + m) V = List.replicate (5 + m) V ++ [V] := by
      rw [← List.replicate_succ' (5 + m) V]
      congr 1
      omega
    rw [hrep, pushSeq_last, ← hrep, pushState_replicate_list]
    have hsum : (∑ _i : Fin 6, ((V : ℚ))) = 6 * V := by
      rw [Finset.sum_const]
      norm_num [mul_comm]
    rw [hsum]
    have h6 : (6 * (V : ℚ)) / 6 = (V : ℚ) := mul_div_cancel_left₀ _ (by norm_num)
    rw [h6]
    by_cases h : (0 : ℚ) ≤ (V : ℚ) <;> simp [pyInt, h]

/-- Witness for `average_brightness_contract`: pushing `10 .. 60` into the
initial smoother yields `⌊210 / 6⌋ = 35`; pushing `42` seven times yields
`42`. -/
theorem average_brightness_contract_witness :
    (pushSeq brightnessInit [10, 20, 30, 40, 50, 60]).2 =
      ⌊((10 + 20 + 30 + 40 + 50 + 60 : ℤ) : ℚ) / 6⌋ ∧
    (pushSeq brightnessInit (List.replicate (6 + 1) 42)).2 = 42 :=
  average_brightness_contract brightnessInit 10 20 30 40 50 60 (by norm_num)
    (by norm_num) (by norm_num) (by norm_num) (by norm_num) (by norm_num) 42 1

/-- C9, amended: the smoother does not clamp — the pushed value is stored
verbatim in the slot at the write cursor (an out-of-range push can drive
the average above 100, as the separate counterexample shows).  The reported
average stays within `[0, 100]` only when the stored values and the pushed
value are themselves within `[0, 100]`, which the reactive caller
guarantees via `map_value`'s clamping to `[20, 100]`. -/
theorem average_brightness_no_clamp (s : BrightnessState) (v : ℤ)
    (hlist : ∀ i, 0 ≤ s.list i ∧ s.list i ≤ 100) (hv : 0 ≤ v)
    (hv2 : v ≤ 100) :
    (average_brightness s v).1.list s.index = v ∧
    0 ≤ (average_brightness s v).2 ∧ (average_brightness s v).2 ≤ 100 := by
  have hentry : ∀ i, 0 ≤ Function.update s.list s.index v i ∧
      Function.update s.list s.index v i ≤ 100 := by
    intro i
    by_cases h : i = s.index
    · rw [h, Function.update_same]
      exact ⟨hv, hv2⟩
    · rw [Function.update_noteq h]
      exact hlist i
  have hsum0 : 0 ≤ ∑ i, ((Function.update s.list s.index v i : ℚ)) :=
    Finset.sum_nonneg fun i _ => by exact_mod_cast (hentry i).1
  have hsum600 : (∑ i, ((Function.update s.list s.index v i : ℚ))) ≤ 600 := by
    calc (∑ i, ((Function.update s.list s.index v i : ℚ)))
        ≤ ∑ _i : Fin 6, (100 : ℚ) :=
          Finset.sum_le_sum fun i _ => by exact_mod_cast (hentry i).2
      _ = 600 := by rw [Finset.sum_const]; norm_num
  have havg : (average_brightness s v).2 =
      pyInt ((∑ i, ((Function.update s.list s.index v i : ℚ))) / 6) := rfl
  have hq0 : 0 ≤ (∑ i, ((Function.update s.list s.index v i : ℚ))) / 6 :=
    div_nonneg hsum0 (by norm_num)
  refine ⟨Function.update_same _ _ _, ?_, ?_⟩
  · rw [havg, pyInt, if_pos hq0]
    exact Int.floor_nonneg.mpr hq0
  · rw [havg, pyInt, if_pos hq0]
    have hq100 : (∑ i, ((Function.update s.list s.index v i : ℚ))) / 6 ≤ 100 := by
      rw [div_le_iff₀ (by norm_num)]
      linarith
    calc ⌊(∑ i, ((Function.update s.list s.index v i : ℚ))) / 6⌋
        ≤ ⌊(100 : ℚ)⌋ := Int.floor_le_floor hq100
      _ = 100 := by norm_num

/-- Witness for `average_brightness_no_clamp`: pushing the in-range value
`55` into the initial smoother state. -/
theorem average_brightness_no_clamp_witness :
    (average_brightness brightnessInit 55).1.list brightnessInit.index = 55 ∧
    0 ≤ (average_brightness brightnessInit 55).2 ∧
    (average_brightness brightnessInit 55).2 ≤ 100 :=
  average_brightness_no_clamp brightnessInit 55
    (fun i => by constructor <;> norm_num [brightnessInit]) (by norm_num)
    (by norm_num)

/-- Counterexample to C9 as stated: pushing the out-of-range value `150`
into the initial smoother stores `150` verbatim (no clamping into
`[0, 100]`) and the reported average is `⌊650 / 6⌋ = 108 > 100`. -/
theorem claim_C9_counterexample :
    (average_brightness brightnessInit 150).1.list 0 = 150 ∧
    100 < (average_brightness brightnessInit 150).2 := by
  constructor
  · simp [average_brightness, brightnessInit]
  · simp +decide [average_brightness, brightnessInit, pyInt,
      Fin.sum_univ_six, Function.update]
    norm_num

/-! ### Claims C3-C6: the reactive renderer -/

lemma reactive_snd (s : ReactiveState) (amp : ℚ) (enc : ℤ) :
    (reactive s amp enc).2 =
      if reactiveComputedColor s amp enc = OFF then
        ((if s.lastNonZeroColor = none ∨ reactiveComputedColor s amp enc ≠ OFF
          then some (reactiveComputedColor s amp enc)
          else s.lastNonZeroColor).getD OFF)
      else reactiveComputedColor s amp enc := rfl

lemma reactive_fst_colorIndex (s : ReactiveState) (amp : ℚ) (enc : ℤ) :
    (reactive s amp enc).1.colorIndex =
      if s.colorIndex ≠ COLOR_INDEX_MAX then s.colorIndex + 1 else 0 := rfl

lemma reactive_fst_lastNonZeroColor (s : ReactiveState) (amp : ℚ) (enc : ℤ) :
    (reactive s amp enc).1.lastNonZeroColor =
      if s.lastNonZeroColor = none ∨ reactiveComputedColor s amp enc ≠ OFF
      then some (reactiveComputedColor s amp enc)
      else s.lastNonZeroColor := rfl

/-- C4: on a frame whose computed wheel color is `(0,0,0)`, the emitted
color is the cached last-non-off color when one is cached, and `(0,0,0)`
when nothing was ever cached. -/
theorem reactive_flicker_avoidance (s : ReactiveState) (amp : ℚ) (enc : ℤ)
    (hoff : reactiveComputedColor s amp enc = OFF) :
    (∀ c, s.lastNonZeroColor = some c → (reactive s amp enc).2 = c) ∧
    (s.lastNonZeroColor = none → (reactive s amp enc).2 = OFF) := by
  constructor
  · intro c hc
    rw [reactive_snd, if_pos hoff]
    have hcond : ¬(s.lastNonZeroColor = none ∨
        reactiveComputedColor s amp enc ≠ OFF) := by
      rw [hc]
      simp [hoff]
    rw [if_neg hcond, hc]
    rfl
  · intro hn
    rw [reactive_snd, if_pos hoff, if_pos (Or.inl hn), hoff]
    rfl

/-- Witness for `reactive_flicker_avoidance`: a state whose cursor stands
at `COLOR_INDEX_MAX` (so the wheel position is `256` and the computed
color is off) with `(1, 2, 3)` cached: the frame emits `(1, 2, 3)`. -/
theorem reactive_flicker_avoidance_witness :
    (reactive ⟨fun _ => 100, 0, COLOR_INDEX_MAX, some (1, 2, 3)⟩ 0 0).2 =
      (1, 2, 3) :=
  (reactive_flicker_avoidance ⟨fun _ => 100, 0, COLOR_INDEX_MAX, some (1, 2, 3)⟩
    0 0 (by norm_num [reactiveComputedColor, wheel, COLOR_INDEX_MAX,
      REACTIVE_COLOR_CHANGE_SPEED, OFF])).1 (1, 2, 3) rfl

/-- C3, amended: the hue cursor is advanced AFTER color resolution, not
before.  On every frame whose computed color is not off, the emitted color
is `wheel` of the PRE-advance cursor divided by the speed (evaluated at
the frame's freshly smoothed average brightness), and the new cursor is
the old one advanced by 1, wrapping to 0 only when the old cursor already
EQUALS `COLOR_INDEX_MAX`. -/
theorem reactive_cursor_order (s : ReactiveState) (amp : ℚ) (enc : ℤ)
    (hnz : reactiveComputedColor s amp enc ≠ OFF) :
    (reactive s amp enc).2 =
      wheel ((average_brightness ⟨s.brightnessList, s.brightnessIndex⟩
          (reactiveBrightness amp enc)).2)
        ((s.colorIndex : ℚ) / (REACTIVE_COLOR_CHANGE_SPEED : ℚ)) ∧
    (reactive s amp enc).1.colorIndex =
      (if s.colorIndex ≠ COLOR_INDEX_MAX then s.colorIndex + 1 else 0) := by
  constructor
  · rw [reactive_snd, if_neg hnz]
    rfl
  · rfl

/-- Witness for `reactive_cursor_order`: the first frame from the initial
state with a silent sample and encoder at 0. -/
theorem reactive_cursor_order_witness :
    (reactive reactiveInit 0 0).2 =
      wheel ((average_brightness ⟨reactiveInit.brightnessList,
          reactiveInit.brightnessIndex⟩ (reactiveBrightness 0 0)).2)
        ((reactiveInit.colorIndex : ℚ) / (REACTIVE_COLOR_CHANGE_SPEED : ℚ)) ∧
    (reactive reactiveInit 0 0).1.colorIndex =
      (if reactiveInit.colorIndex ≠ COLOR_INDEX_MAX
       then reactiveInit.colorIndex + 1 else 0) :=
  reactive_cursor_order reactiveInit 0 0 (by
    simp +decide [reactiveComputedColor, reactiveBrightness, map_value,
      average_brightness, wheel, apply_brightness, pyInt, reactiveInit,
      AMPLITUDE_PEAK, REACTIVE_COLOR_CHANGE_SPEED, OFF,
      Fin.sum_univ_six, Function.update]
    norm_num)

/-- Counterexample to C3 as stated: on the first reactive frame from the
initial state (silent sample, encoder 0) the emitted color is
`wheel(0 / 3) = (219, 0, 0)` (smoothed average brightness 86), whereas the
claim's `wheel(new_cursor / 3) = wheel(1 / 3) = (218, 0, 0)`: the emitted
color is computed from the cursor value BEFORE the advance, not after. -/
theorem claim_C3_counterexample :
    (reactive reactiveInit 0 0).2 ≠
      wheel ((average_brightness ⟨reactiveInit.brightnessList,
          reactiveInit.brightnessIndex⟩ (reactiveBrightness 0 0)).2)
        (((reactive reactiveInit 0 0).1.colorIndex : ℚ) /
          (REACTIVE_COLOR_CHANGE_SPEED : ℚ)) := by
  simp +decide [reactive, reactiveComputedColor, reactiveBrightness,
    map_value, average_brightness, wheel, apply_brightness, pyInt,
    reactiveInit, AMPLITUDE_PEAK, REACTIVE_COLOR_CHANGE_SPEED, OFF,
    COLOR_INDEX_MAX, Fin.sum_univ_six, Function.update]
  norm_num

/-- The cursor advance performed at the end of every reactive frame,
`color_index = color_index + 1 if color_index != COLOR_INDEX_MAX else 0`. -/
def advanceColorIndex (c : ℤ) : ℤ :=
  if c ≠ COLOR_INDEX_MAX then c + 1 else 0

lemma runReactive_colorIndex (s : ReactiveState) (inputs : List (ℚ × ℤ)) :
    (runReactive s inputs).colorIndex =
      inputs.foldl (fun c _ => advanceColorIndex c) s.colorIndex := by
  induction inputs generalizing s with
  | nil => rfl
  | cons x xs ih =>
    simp only [runReactive, List.foldl_cons] at ih ⊢
    exact ih (reactive s x.1 x.2).1

/-- C6, amended: the hue cursor stays in the CLOSED range
`[0, COLOR_INDEX_MAX]` over every run of reactive frames from the initial
state.  It does reach `COLOR_INDEX_MAX` itself (once per cycle, whereupon
the next frame wraps it to 0), so the claimed half-open range
`[0, COLOR_INDEX_MAX)` is off by one. -/
theorem reactive_color_index_range (inputs : List (ℚ × ℤ)) :
    0 ≤ (runReactive reactiveInit inputs).colorIndex ∧
    (runReactive reactiveInit inputs).colorIndex ≤ COLOR_INDEX_MAX := by
  rw [runReactive_colorIndex]
  suffices h : ∀ (l : List (ℚ × ℤ)) (c : ℤ), 0 ≤ c → c ≤ COLOR_INDEX_MAX →
      0 ≤ l.foldl (fun c _ => advanceColorIndex c) c ∧
      l.foldl (fun c _ => advanceColorIndex c) c ≤ COLOR_INDEX_MAX by
    exact h inputs 0 le_rfl
      (by norm_num [COLOR_INDEX_MAX, REACTIVE_COLOR_CHANGE_SPEED])
  intro l
  induction l with
  | nil => exact fun c h0 h1 => ⟨h0, h1⟩
  | cons x xs ih =>
    intro c h0 h1
    rw [List.foldl_cons]
    apply ih
    · by_cases h : c = COLOR_INDEX_MAX <;> simp [advanceColorIndex, h] <;> omega
    · by_cases h : c = COLOR_INDEX_MAX <;>
        simp only [advanceColorIndex, COLOR_INDEX_MAX,
          REACTIVE_COLOR_CHANGE_SPEED, h] at * <;>
        norm_num at * <;> omega

lemma foldl_advance_replicate (n : ℕ) : ∀ (c : ℤ), c + n ≤ COLOR_INDEX_MAX →
    List.foldl (fun c _ => advanceColorIndex c) c
      (List.replicate n ((0 : ℚ), (0 : ℤ))) = c + n := by
  induction n with
  | zero =>
    intro c _
    simp
  | succ n ih =>
    intro c h1
    rw [List.replicate_succ, List.foldl_cons]
    have hc : c ≠ COLOR_INDEX_MAX := by
      simp only [COLOR_INDEX_MAX, REACTIVE_COLOR_CHANGE_SPEED] at h1 ⊢
      push_cast at h1
      omega
    rw [show advanceColorIndex c = c + 1 from if_pos hc]
    rw [ih (c + 1) (by push_cast at h1 ⊢; omega)]
    push_cast
    ring

/-- Counterexample to C6 as stated: after exactly `COLOR_INDEX_MAX = 768`
reactive frames from the initial state the cursor HAS value
`COLOR_INDEX_MAX` (the wrap to 0 only happens on the following frame), so
the cursor is not always strictly below `COLOR_INDEX_MAX`. -/
theorem claim_C6_counterexample :
    (runReactive reactiveInit
      (List.replicate 768 ((0 : ℚ), (0 : ℤ)))).colorIndex = COLOR_INDEX_MAX := by
  rw [runReactive_colorIndex]
  show List.foldl (fun c _ => advanceColorIndex c) (0 : ℤ)
    (List.replicate 768 ((0 : ℚ), (0 : ℤ))) = COLOR_INDEX_MAX
  rw [foldl_advance_replicate 768 0
    (by norm_num [COLOR_INDEX_MAX, REACTIVE_COLOR_CHANGE_SPEED])]
  norm_num [COLOR_INDEX_MAX, REACTIVE_COLOR_CHANGE_SPEED]

lemma map_value_20_100 (x imin imax : ℚ) :
    20 ≤ map_value x imin imax 20 100 ∧ map_value x imin imax 20 100 ≤ 100 := by
  unfold map_value
  exact ⟨le_max_right _ _, max_le (min_le_left _ _) (by norm_num)⟩

lemma sum_update_const100 (idx : Fin 6) (b : ℤ) :
    (∑ i, ((Function.update (fun _ : Fin 6 => (100 : ℤ)) idx b i : ℚ))) =
      (b : ℚ) + 500 := by
  have hfun : (fun i => ((Function.update (fun _ : Fin 6 => (100 : ℤ)) idx b i : ℚ))) =
      Function.update (fun _ : Fin 6 => (100 : ℚ)) idx ((b : ℚ)) := by
    funext i
    by_cases h : i = idx
    · rw [h]
      simp
    · rw [Function.update_noteq h, Function.update_noteq h]
      norm_num
  rw [hfun, Finset.sum_update_of_mem (Finset.mem_univ idx), Finset.sum_const]
  rw [Finset.card_univ_diff]
  norm_num

/-- At any positive average brightness, the wheel color at position 0 is
pure red scaled by the brightness, whose red channel is at least 1 — so it
is never the off color. -/
lemma wheel_zero_ne_off (avg : ℤ) (h : 1 ≤ avg) : wheel avg 0 ≠ OFF := by
  unfold wheel
  rw [if_neg (by norm_num), if_pos (by norm_num)]
  intro heq
  have h1 : apply_brightness avg (255 - 0 * 3) = 0 := by
    have := congrArg Prod.fst heq
    simpa [OFF] using this
  have h2 : (1 : ℤ) ≤ apply_brightness avg (255 - 0 * 3) := by
    unfold apply_brightness
    have hq : (1 : ℚ) ≤ (255 - 0 * 3) * (avg : ℚ) / 100 := by
      rw [le_div_iff₀ (by norm_num)]
      have : (1 : ℚ) ≤ (avg : ℚ) := by exact_mod_cast h
      nlinarith
    rw [pyInt, if_pos (le_trans (by norm_num) hq)]
    exact Int.le_floor.mpr (by exact_mod_cast hq)
  omega

/-- On a frame whose state still has the initial cursor (0) and the
initial brightness history (all 100), the computed wheel color is never
off: the smoothed average brightness is at least 86 and the wheel position
is 0, giving a red channel of at least 219. -/
lemma first_frame_color_ne_off (s : ReactiveState) (amp : ℚ) (enc : ℤ)
    (hc : s.colorIndex = 0) (hl : s.brightnessList = fun _ => 100) :
    reactiveComputedColor s amp enc ≠ OFF := by
  have hbb : 20 ≤ reactiveBrightness amp enc ∧
      reactiveBrightness amp enc ≤ 100 :=
    map_value_20_100 amp 0 (((AMPLITUDE_PEAK - enc * 50 : ℤ) : ℚ))
  have havg : (average_brightness ⟨s.brightnessList, s.brightnessIndex⟩
      (reactiveBrightness amp enc)).2 =
      pyInt ((((reactiveBrightness amp enc : ℤ) : ℚ) + 500) / 6) := by
    show pyInt ((∑ i, ((Function.update s.brightnessList s.brightnessIndex
      (reactiveBrightness amp enc) i : ℚ))) / 6) = _
    rw [hl, sum_update_const100]
  have havg86 : 86 ≤ (average_brightness ⟨s.brightnessList, s.brightnessIndex⟩
      (reactiveBrightness amp enc)).2 := by
    rw [havg]
    have hb20 : (20 : ℚ) ≤ ((reactiveBrightness amp enc : ℤ) : ℚ) := by
      exact_mod_cast hbb.1
    have hq : (86 : ℚ) ≤ ((((reactiveBrightness amp enc : ℤ) : ℚ)) + 500) / 6 := by
      rw [le_div_iff₀ (by norm_num)]
      linarith
    rw [pyInt, if_pos (le_trans (by norm_num) hq)]
    exact Int.le_floor.mpr hq
  have hpos : ((s.colorIndex : ℚ)) / (REACTIVE_COLOR_CHANGE_SPEED : ℚ) = 0 := by
    rw [hc]
    norm_num
  have hunfold : reactiveComputedColor s amp enc =
      wheel ((average_brightness ⟨s.brightnessList, s.brightnessIndex⟩
          (reactiveBrightness amp enc)).2)
        ((s.colorIndex : ℚ) / (REACTIVE_COLOR_CHANGE_SPEED : ℚ)) := rfl
  rw [hunfold, hpos]
  exact wheel_zero_ne_off _ (le_trans (by norm_num) havg86)

/-- The cross-frame invariant behind C5: whenever nothing has been cached
yet the state is still the initial one in the fields that matter (cursor 0
and all-100 history, so the next computed color cannot be off), and the
cache never holds the off color. -/
def ReactiveInv (s : ReactiveState) : Prop :=
  (s.lastNonZeroColor = none →
    s.colorIndex = 0 ∧ s.brightnessList = fun _ => 100) ∧
  s.lastNonZeroColor ≠ some OFF

lemma reactiveInv_init : ReactiveInv reactiveInit :=
  ⟨fun _ => ⟨rfl, rfl⟩, by simp [reactiveInit]⟩

lemma reactiveInv_step (s : ReactiveState) (amp : ℚ) (enc : ℤ)
    (h : ReactiveInv s) : ReactiveInv (reactive s amp enc).1 := by
  obtain ⟨hnone, hnoff⟩ := h
  constructor
  · intro habs
    rw [reactive_fst_lastNonZeroColor] at habs
    by_cases hcase : s.lastNonZeroColor = none ∨
        reactiveComputedColor s amp enc ≠ OFF
    · rw [if_pos hcase] at habs
      exact absurd habs (by simp)
    · rw [if_neg hcase] at habs
      push_neg at hcase
      exact absurd habs hcase.1
  · rw [reactive_fst_lastNonZeroColor]
    by_cases hcase : s.lastNonZeroColor = none ∨
        reactiveComputedColor s amp enc ≠ OFF
    · rw [if_pos hcase]
      intro habs
      have hco : reactiveComputedColor s amp enc = OFF := by
        simpa using habs
      rcases hcase with hnone2 | hne
      · obtain ⟨hc0, hl0⟩ := hnone hnone2
        exact first_frame_color_ne_off s amp enc hc0 hl0 hco
      · exact hne hco
    · rw [if_neg hcase]
      exact hnoff

/-- C5: over every run of reactive frames from the initial state, the
last-non-off cache never holds the off color `(0, 0, 0)`.  (The update
condition in the code does write `color` into the cache even when
`color == OFF`, provided the cache is still `None`; but that situation
never arises, because as long as the cache is `None` the state still has
cursor 0 and an all-100 brightness history, for which the computed color
is a non-off red.) -/
theorem reactive_last_non_off_invariant (inputs : List (ℚ × ℤ)) :
    (runReactive reactiveInit inputs).lastNonZeroColor ≠ some OFF := by
  suffices h : ∀ (l : List (ℚ × ℤ)) (st : ReactiveState), ReactiveInv st →
      ReactiveInv (runReactive st l) by
    exact (h inputs reactiveInit reactiveInv_init).2
  intro l
  induction l with
  | nil => exact fun st hst => hst
  | cons x xs ih =>
    intro st hst
    exact ih _ (reactiveInv_step st x.1 x.2 hst)
